import Mathlib

/-!
Verification of the Monte Carlo variance-reduction material: a shallow
embedding of the code snippets (antithetic sampling, control variates,
moment normalization, geometric Brownian motion simulation) together with
theorems settling the specified properties.

Exact arithmetic conventions: the Python code computes with IEEE doubles;
the embedding uses the rationals for the sampling and estimator layers and
the reals for the layers that involve exp and sqrt.  An IEEE NaN produced
by a zero-divided-by-zero is modelled by none in an Option-valued result.
-/

namespace MC

/-- np.mean: the sum of the list divided by its length (field-valued,
instantiated at the rationals and at the reals). -/
def mean {α : Type} [DivisionRing α] (l : List α) : α :=
  l.sum / (l.length : α)

/-- np.var with the default denominator n (population variance): the mean
of the squared deviations from the mean. -/
def varP {α : Type} [Field α] (l : List α) : α :=
  mean (l.map (fun x => (x - mean l) ^ 2))

/-- np.cov(f, g)[0, 1] with the default normalization by n - 1: the sum of
the products of deviations, divided by length minus one. -/
def cov1 (f g : List ℚ) : ℚ :=
  (List.zipWith (fun a b => (a - mean f) * (b - mean g)) f g).sum / ((f.length : ℚ) - 1)

/-- Modelled from the spec: the unbiased sample variance with the n - 1
denominator, the estimator named by the spec sentence on the optimal
coefficient.  The code itself calls np.var, which divides by n; this
definition exists only to compare the spec wording with the code. -/
def varUnbiased (g : List ℚ) : ℚ :=
  (g.map (fun x => (x - mean g) ^ 2)).sum / ((g.length : ℚ) - 1)

/-- The optimal-coefficient line of the control-variate example:
c_optimal = -np.cov(f_x, g_x)[0, 1] / np.var(g_x).  When np.var(g) is zero
the control list is constant, the covariance row is zero as well, and the
float quotient 0 / 0 is NaN; that outcome is modelled by none. -/
def c_optimal (f g : List ℚ) : Option ℚ :=
  if varP g = 0 then none else some (-(cov1 f g) / varP g)

/-- The adjusted-estimate line for a given coefficient c:
np.mean(f_x + c * (g_x - np.mean(g_x))). -/
def adjusted_estimate (c : ℚ) (f g : List ℚ) : ℚ :=
  mean (List.zipWith (fun fi gi => fi + c * (gi - mean g)) f g)

/-- I_hat_monte_carlo = np.mean(f_x + c_optimal * (g_x - np.mean(g_x))):
the adjusted estimate at the computed optimal coefficient; a NaN
coefficient poisons the mean, hence the Option. -/
def I_hat_monte_carlo (f g : List ℚ) : Option ℚ :=
  (c_optimal f g).map (fun c => adjusted_estimate c f g)

/-- The antithetic-uniform construction of monte_carlo_pi_antithetic and
estimate_pi_antithetic: np.concatenate((u, 1 - u)). -/
def antithetic_uniform (u : List ℚ) : List ℚ :=
  u ++ u.map (fun x => 1 - x)

/-- The antithetic-normal construction of antithetic_variates and of the
European-call example: np.concatenate((U, -U)). -/
def antithetic_variates (u : List ℚ) : List ℚ :=
  u ++ u.map (fun x => -x)

/-- The process-wide numpy generator, modelled as the stream of values it
will emit together with the current read position.  Each np.random call
reads from the stream at the position and advances the position. -/
structure RNG where
  stream : ℕ → ℚ
  pos : ℕ

/-- np.random.random(k) (or a k-element normal draw): the next k stream
values, together with the advanced generator state. -/
def randList (k : ℕ) (s : RNG) : List ℚ × RNG :=
  ((List.range k).map (fun i => s.stream (s.pos + i)), ⟨s.stream, s.pos + k⟩)

/-- A concrete generator state used for evaluation: a constant stream at
one half, read position zero. -/
def rng0 : RNG :=
  ⟨fun _ => 1 / 2, 0⟩

/-- monte_carlo_pi_antithetic(n): draw n / 2 uniforms, build the
antithetic concatenation x, draw n independent y values, and return
(np.sum(inside_circle) / n) * 4 together with the advanced global
generator state.  The pairing of x against y is elementwise; for odd n
the two numpy arrays have lengths n - 1 and n and numpy refuses the
broadcast, after both draws have already advanced the generator. -/
def monte_carlo_pi_antithetic (n : ℕ) (s : RNG) : ℚ × RNG :=
  let us := randList (n / 2) s
  let x := antithetic_uniform us.1
  let ys := randList n us.2
  let inside := List.zipWith (fun xi yi => if xi ^ 2 + yi ^ 2 ≤ 1 then (1 : ℚ) else 0) x ys.1
  ((inside.sum / (n : ℚ)) * 4, ys.2)

/-- estimate_pi_antithetic(n): draw n / 2 x values and n / 2 y values,
form both antithetic images, concatenate the two indicator arrays and
return 4 * np.mean(inside_circle) with the advanced generator state. -/
def estimate_pi_antithetic (n : ℕ) (s : RNG) : ℚ × RNG :=
  let xs := randList (n / 2) s
  let ys := randList (n / 2) xs.2
  let xa := xs.1.map (fun t => 1 - t)
  let ya := ys.1.map (fun t => 1 - t)
  let inside :=
    List.zipWith (fun a b => if a ^ 2 + b ^ 2 ≤ 1 then (1 : ℚ) else 0) xs.1 ys.1
      ++ List.zipWith (fun a b => if a ^ 2 + b ^ 2 ≤ 1 then (1 : ℚ) else 0) xa ya
  (4 * mean inside, ys.2)

section ListLemmas

variable {α : Type} [Field α]

/-- Summation of an affine image: the sum of a * x + b over a list. -/
theorem sum_map_affine (a b : α) (l : List α) :
    (l.map (fun x => a * x + b)).sum = a * l.sum + (l.length : α) * b := by
  induction l with
  | nil => simp
  | cons x xs ih =>
    simp only [List.map_cons, List.sum_cons, ih, List.length_cons]
    push_cast
    ring

/-- The length cast of a nonempty list is nonzero in a characteristic-zero
field. -/
theorem length_cast_ne_zero [CharZero α] {l : List α} (h : l ≠ []) :
    (l.length : α) ≠ 0 := by
  have : l.length ≠ 0 := by
    intro h0
    exact h (List.length_eq_zero.mp h0)
  exact_mod_cast this

/-- The mean of an affine image of a nonempty list. -/
theorem mean_map_affine [CharZero α] (a b : α) {l : List α} (h : l ≠ []) :
    mean (l.map (fun x => a * x + b)) = a * mean l + b := by
  have hn : (l.length : α) ≠ 0 := length_cast_ne_zero h
  simp only [mean, sum_map_affine, List.length_map]
  field_simp
  ring

/-- The sum of the zipWith of the centered correction used by the adjusted
estimator, for lists of equal length. -/
theorem sum_zip_center (c m : α) :
    ∀ (f g : List α), f.length = g.length →
      (List.zipWith (fun fi gi => fi + c * (gi - m)) f g).sum
        = f.sum + c * (g.sum - (g.length : α) * m) := by
  intro f
  induction f with
  | nil =>
    intro g hg
    have : g = [] := List.length_eq_zero.mp hg.symm
    subst this
    simp
  | cons a f ih =>
    intro g hg
    cases g with
    | nil => simp at hg
    | cons b g =>
      have hlen : f.length = g.length := by
        simpa using hg
      simp only [List.zipWith_cons_cons, List.sum_cons, ih g hlen, List.length_cons]
      push_cast
      ring

end ListLemmas

/-- Claim C1: for every antithetic sample set of even size n and every
index i below n / 2, the paired elements satisfy the antithetic relation
exactly: the pair sums to one for the uniform construction
np.concatenate((u, 1 - u)) and to zero for the normal construction
np.concatenate((U, -U)).  Here the set has size n = 2 * u.length and the
pair is read at positions i and i + u.length. -/
theorem antithetic_pair_relation (u : List ℚ) (i : ℕ) (h : i < u.length) :
    ((antithetic_uniform u)[i]?.bind
        (fun a => (antithetic_uniform u)[i + u.length]?.map (fun b => a + b)) = some 1)
  ∧ ((antithetic_variates u)[i]?.bind
        (fun a => (antithetic_variates u)[i + u.length]?.map (fun b => a + b)) = some 0) := by
  have hle : u.length ≤ i + u.length := Nat.le_add_left _ _
  have hsub : i + u.length - u.length = i := by omega
  constructor
  · have h1 : (antithetic_uniform u)[i]? = some u[i] := by
      rw [antithetic_uniform, List.getElem?_append_left h]
      exact List.getElem?_eq_getElem h
    have h2 : (antithetic_uniform u)[i + u.length]? = some (1 - u[i]) := by
      rw [antithetic_uniform, List.getElem?_append_right (by simp)]
      simp [hsub, List.getElem?_eq_getElem h]
    rw [h1, h2]
    simp
  · have h1 : (antithetic_variates u)[i]? = some u[i] := by
      rw [antithetic_variates, List.getElem?_append_left h]
      exact List.getElem?_eq_getElem h
    have h2 : (antithetic_variates u)[i + u.length]? = some (-u[i]) := by
      rw [antithetic_variates, List.getElem?_append_right (by simp)]
      simp [hsub, List.getElem?_eq_getElem h]
    rw [h1, h2]
    simp

/-- Witness for claim C1 at the one-element base list holding one third,
index zero. -/
theorem antithetic_pair_relation_witness :
    0 < ([(1 : ℚ) / 3]).length
  ∧ (((antithetic_uniform [(1 : ℚ) / 3])[0]?.bind
        (fun a => (antithetic_uniform [(1 : ℚ) / 3])[0 + ([(1 : ℚ) / 3]).length]?.map
          (fun b => a + b)) = some 1)
    ∧ ((antithetic_variates [(1 : ℚ) / 3])[0]?.bind
        (fun a => (antithetic_variates [(1 : ℚ) / 3])[0 + ([(1 : ℚ) / 3]).length]?.map
          (fun b => a + b)) = some 0)) :=
  ⟨by decide, antithetic_pair_relation [(1 : ℚ) / 3] 0 (by decide)⟩

/-- Claim C2: for equal-length sample lists with at least one element, the
adjusted estimate mean(f + c * (g - mean g)) equals mean f exactly, for
every coefficient c; consequently the control-variate estimator, which
centers the correction on the sample mean of g, returns exactly the plain
Monte Carlo mean of f whenever its coefficient is defined. -/
theorem adjusted_estimate_eq_mean (f g : List ℚ) (hlen : f.length = g.length)
    (hne : f ≠ []) :
    (∀ c : ℚ, adjusted_estimate c f g = mean f)
  ∧ (varP g ≠ 0 → I_hat_monte_carlo f g = some (mean f)) := by
  have hgne : g ≠ [] := by
    intro hg
    apply hne
    apply List.length_eq_zero.mp
    rw [hlen, hg]
    rfl
  have hgn : (g.length : ℚ) ≠ 0 := length_cast_ne_zero hgne
  have hmain : ∀ c : ℚ, adjusted_estimate c f g = mean f := by
    intro c
    unfold adjusted_estimate
    rw [mean, sum_zip_center c (mean g) f g hlen]
    have hcenter : g.sum - (g.length : ℚ) * mean g = 0 := by
      rw [mean]
      field_simp
    rw [hcenter, mul_zero, add_zero, List.length_zipWith, hlen, Nat.min_self, ← hlen]
    rfl
  refine ⟨hmain, fun hv => ?_⟩
  unfold I_hat_monte_carlo c_optimal
  rw [if_neg hv]
  simp [hmain]

/-- Witness for claim C2 at f = [1, 2], g = [3, 4], coefficient 7. -/
theorem adjusted_estimate_eq_mean_witness :
    (([1, 2] : List ℚ).length = ([3, 4] : List ℚ).length ∧ ([1, 2] : List ℚ) ≠ [])
  ∧ adjusted_estimate 7 [1, 2] [3, 4] = mean [1, 2]
  ∧ I_hat_monte_carlo [1, 2] [3, 4] = some (mean [1, 2]) :=
  ⟨⟨by decide, by decide⟩,
    (adjusted_estimate_eq_mean [1, 2] [3, 4] (by decide) (by decide)).1 7,
    (adjusted_estimate_eq_mean [1, 2] [3, 4] (by decide) (by decide)).2
      (by norm_num [varP, mean])⟩

/-- Expansion of the sum of centered cross products into raw moments, for
lists of equal length. -/
theorem sum_zip_centered_prod (mf mg : ℚ) :
    ∀ (f g : List ℚ), f.length = g.length →
      (List.zipWith (fun a b => (a - mf) * (b - mg)) f g).sum
        = (List.zipWith (fun a b => a * b) f g).sum
            - mg * f.sum - mf * g.sum + (g.length : ℚ) * (mf * mg) := by
  intro f
  induction f with
  | nil =>
    intro g hg
    have : g = [] := List.length_eq_zero.mp hg.symm
    subst this
    simp
  | cons a f ih =>
    intro g hg
    cases g with
    | nil => simp at hg
    | cons b g =>
      have hlen : f.length = g.length := by
        simpa using hg
      simp only [List.zipWith_cons_cons, List.sum_cons, ih g hlen, List.length_cons]
      push_cast
      ring

/-- Expansion of the sum of squared deviations into raw moments. -/
theorem sum_map_sq_center (m : ℚ) (g : List ℚ) :
    (g.map (fun x => (x - m) ^ 2)).sum
      = (g.map (fun x => x ^ 2)).sum - 2 * m * g.sum + (g.length : ℚ) * m ^ 2 := by
  induction g with
  | nil => simp
  | cons b g ih =>
    simp only [List.map_cons, List.sum_cons, ih, List.length_cons]
    push_cast
    ring

/-- The population variance of a nonempty list equals the mean of the
squares minus the square of the mean. -/
theorem varP_eq_moments {g : List ℚ} (h : g ≠ []) :
    varP g = mean (g.map (fun x => x ^ 2)) - (mean g) ^ 2 := by
  have hn : (g.length : ℚ) ≠ 0 := length_cast_ne_zero h
  unfold varP mean
  rw [List.length_map, sum_map_sq_center, List.length_map]
  field_simp
  ring

/-- The n - 1 covariance of equal-length nonempty lists, rewritten through
the product-moment identity. -/
theorem cov1_eq_moments {f g : List ℚ} (hlen : f.length = g.length) (hne : f ≠ []) :
    cov1 f g
      = ((List.zipWith (fun a b => a * b) f g).sum
          - (g.length : ℚ) * (mean f * mean g)) / ((g.length : ℚ) - 1) := by
  have hgne : g ≠ [] := by
    intro hg
    exact hne (List.length_eq_zero.mp (by rw [hlen, hg]; rfl))
  have hfn : (f.length : ℚ) ≠ 0 := length_cast_ne_zero hne
  have hgn : (g.length : ℚ) ≠ 0 := length_cast_ne_zero hgne
  unfold cov1
  rw [sum_zip_centered_prod (mean f) (mean g) f g hlen]
  rw [show f.sum = (f.length : ℚ) * mean f by rw [mean]; field_simp]
  rw [show g.sum = (g.length : ℚ) * mean g by rw [mean]; field_simp]
  rw [hlen]
  ring

/-- The mean of a constant nonempty list is that constant. -/
theorem mean_const {g : List ℚ} {a : ℚ} (hne : g ≠ []) (hconst : ∀ x ∈ g, x = a) :
    mean g = a := by
  have hsum : g.sum = (g.length : ℚ) * a := by
    induction g with
    | nil => simp
    | cons b l ih =>
      have hb : b = a := hconst b (List.mem_cons_self b l)
      by_cases hl : l = []
      · subst hl
        simp [hb]
      · have := ih hl (fun x hx => hconst x (List.mem_cons_of_mem b hx))
        simp only [List.sum_cons, this, List.length_cons, hb]
        push_cast
        ring
  rw [mean, hsum]
  have hn : (g.length : ℚ) ≠ 0 := length_cast_ne_zero hne
  field_simp

/-- The population variance of a constant nonempty list is zero. -/
theorem varP_const {g : List ℚ} {a : ℚ} (hne : g ≠ []) (hconst : ∀ x ∈ g, x = a) :
    varP g = 0 := by
  unfold varP
  have hzero : g.map (fun x => (x - mean g) ^ 2) = g.map (fun _ => 0) := by
    apply List.map_congr_left
    intro x hx
    rw [hconst x hx, mean_const hne hconst]
    ring
  rw [hzero, mean]
  simp

/-- Claim C3 counterexample: at f = [0, 1], g = [0, 1] the code computes
the coefficient -2, because np.cov divides by n - 1 = 1 while np.var
divides by n = 2; the spec formula with the unbiased n - 1 variance gives
-1 at the same input, so the claim that both denominators are n - 1 is
false of the code. -/
theorem c_optimal_denominator_counterexample :
    c_optimal [0, 1] [0, 1] = some (-2)
  ∧ -(cov1 [0, 1] [0, 1]) / varUnbiased [0, 1] = -1
  ∧ c_optimal [0, 1] [0, 1] ≠ some (-(cov1 [0, 1] [0, 1]) / varUnbiased [0, 1]) := by
  refine ⟨?_, ?_, ?_⟩
  · norm_num [c_optimal, cov1, varP, mean]
  · norm_num [cov1, varUnbiased, mean]
  · norm_num [c_optimal, cov1, varP, varUnbiased, mean]

/-- Claim C3 as amended: for equal-length sample lists with at least two
elements and a nonzero np.var of g, the code computes the coefficient
c = -Cov(f, g) / Var(g) in which the covariance carries the unbiased
n - 1 denominator but the variance of g carries the population denominator
n; both factors are written here through raw-moment identities. -/
theorem c_optimal_formula (f g : List ℚ) (hlen : f.length = g.length)
    (h2 : 2 ≤ g.length) (hv : varP g ≠ 0) :
    c_optimal f g
      = some (-(((List.zipWith (fun a b => a * b) f g).sum
            - (g.length : ℚ) * (mean f * mean g)) / ((g.length : ℚ) - 1))
          / (mean (g.map (fun x => x ^ 2)) - (mean g) ^ 2)) := by
  have hne : f ≠ [] := by
    intro hf
    rw [hf] at hlen
    simp at hlen
    omega
  have hgne : g ≠ [] := by
    intro hg
    rw [hg] at h2
    simp at h2
  rw [c_optimal, if_neg hv, cov1_eq_moments hlen hne, varP_eq_moments hgne]

/-- Witness for the amended claim C3 at f = [0, 1], g = [0, 2]; the
resulting coefficient is -1. -/
theorem c_optimal_formula_witness :
    (([0, 1] : List ℚ).length = ([0, 2] : List ℚ).length
      ∧ 2 ≤ ([0, 2] : List ℚ).length ∧ varP ([0, 2] : List ℚ) ≠ 0)
  ∧ c_optimal [0, 1] [0, 2] = some (-1) :=
  ⟨⟨by decide, by decide, by norm_num [varP, mean]⟩,
    (c_optimal_formula [0, 1] [0, 2] (by decide) (by decide)
        (by norm_num [varP, mean])).trans (by norm_num [mean])⟩

/-- Claim C4 counterexample: at f = [1, 2] and the constant control
g = [3, 3] the estimator does not return the plain mean of f with a
warning flag; the coefficient is the float NaN (modelled none) and the
estimate is undefined.  No degenerate-input flag exists in the code. -/
theorem control_variate_degenerate_counterexample :
    I_hat_monte_carlo [1, 2] [3, 3] = none
  ∧ I_hat_monte_carlo [1, 2] [3, 3] ≠ some (mean [1, 2]) := by
  have h0 : I_hat_monte_carlo [1, 2] [3, 3] = none := by
    norm_num [I_hat_monte_carlo, c_optimal, varP, mean]
  refine ⟨h0, ?_⟩
  rw [h0]
  simp

/-- Claim C4 as amended: for every sample list f and every constant
nonempty control list g, the unguarded division by the zero variance makes
the optimal coefficient NaN (modelled none) and the adjusted estimate is
therefore undefined as well; the code neither falls back to the plain mean
of f nor carries any degenerate-input flag. -/
theorem control_variate_degenerate (f g : List ℚ) (a : ℚ) (hne : g ≠ [])
    (hconst : ∀ x ∈ g, x = a) :
    c_optimal f g = none ∧ I_hat_monte_carlo f g = none := by
  have hv : varP g = 0 := varP_const hne hconst
  constructor
  · rw [c_optimal, if_pos hv]
  · rw [I_hat_monte_carlo, c_optimal, if_pos hv]
    rfl

/-- Witness for the amended claim C4 at f = [1, 2], g = [3, 3]. -/
theorem control_variate_degenerate_witness :
    (([3, 3] : List ℚ) ≠ [] ∧ ∀ x ∈ ([3, 3] : List ℚ), x = 3)
  ∧ c_optimal [1, 2] [3, 3] = none ∧ I_hat_monte_carlo [1, 2] [3, 3] = none :=
  ⟨⟨by decide, by decide⟩, control_variate_degenerate [1, 2] [3, 3] 3 (by decide) (by decide)⟩

/-- The list returned by a k-element draw has length k. -/
theorem randList_length (k : ℕ) (s : RNG) : ((randList k s).1).length = k := by
  simp [randList]

/-- Claim C5 counterexample: requesting three antithetic samples does not
fail; the draw silently returns the two-element sample set built from the
single base draw (3 / 2 = 1 in integer division). -/
theorem antithetic_odd_counterexample :
    (antithetic_uniform ((randList (3 / 2) rng0).1)).length = 2
  ∧ (antithetic_uniform ((randList (3 / 2) rng0).1)).length ≠ 3 := by
  constructor
  · norm_num [antithetic_uniform, randList, rng0]
  · norm_num [antithetic_uniform, randList, rng0]

/-- Claim C5 as amended: for every odd n, the antithetic samplers raise no
InvalidArgument error; the base draw of n / 2 values produces a combined
sample set of 2 * (n / 2) = n - 1 elements, silently truncating the
requested count, in both the uniform and the normal construction. -/
theorem antithetic_odd_truncates (n : ℕ) (s : RNG) (hodd : Odd n) :
    (antithetic_uniform ((randList (n / 2) s).1)).length = n - 1
  ∧ (antithetic_variates ((randList (n / 2) s).1)).length = n - 1 := by
  obtain ⟨k, hk⟩ := hodd
  constructor
  · simp only [antithetic_uniform, List.length_append, List.length_map, randList_length]
    omega
  · simp only [antithetic_variates, List.length_append, List.length_map, randList_length]
    omega

/-- Witness for the amended claim C5 at n = 3 with the concrete generator
state rng0. -/
theorem antithetic_odd_truncates_witness :
    Odd 3
  ∧ (antithetic_uniform ((randList (3 / 2) rng0).1)).length = 3 - 1
  ∧ (antithetic_variates ((randList (3 / 2) rng0).1)).length = 3 - 1 :=
  ⟨by decide, (antithetic_odd_truncates 3 rng0 (by decide)).1,
    (antithetic_odd_truncates 3 rng0 (by decide)).2⟩

/-- Claim C9 counterexample: one concrete call of the pi estimator changes
the process-wide generator state, so the hidden global generator is read
and mutated; the caller passes no state token and receives a mutated
global position (six draws were consumed). -/
theorem pi_antithetic_mutates_rng_counterexample :
    (monte_carlo_pi_antithetic 4 rng0).2.pos ≠ rng0.pos := by
  norm_num [monte_carlo_pi_antithetic, randList, rng0]

/-- Claim C9 as amended: each call of the pi estimator reads the hidden
global numpy generator and advances its position by the number of draws it
consumes, namely n / 2 uniforms for the antithetic x block and n further
uniforms for y; the stream itself is untouched, so the result is
reproducible only by restoring that hidden state, not through any explicit
state-token argument, which the call does not have. -/
theorem pi_antithetic_advances_global_rng (n : ℕ) (s : RNG) :
    (monte_carlo_pi_antithetic n s).2.pos = s.pos + (n / 2 + n)
  ∧ (monte_carlo_pi_antithetic n s).2.stream = s.stream := by
  constructor
  · simp only [monte_carlo_pi_antithetic, randList]
    omega
  · rfl

section RealLayer

/-- np.std with the default denominator n: the square root of the
population variance. -/
noncomputable def stdR (l : List ℝ) : ℝ :=
  Real.sqrt (varP l)

/-- generate_normal_samples: the moment-matching affine transform
target_mean + target_std * (samples - np.mean(samples)) / np.std(samples);
the base normal draw np.random.normal(0, 1, size) enters as the samples
argument. -/
noncomputable def generate_normal_samples (targetMean targetStd : ℝ)
    (samples : List ℝ) : List ℝ :=
  samples.map (fun x => targetMean + targetStd * (x - mean samples) / stdR samples)

/-- The terminal-price line of monte_carlo_european_call: with dt = T
(single step), ST = S0 * np.exp((r - 0.5 * sigma ** 2) * dt
+ sigma * np.sqrt(dt) * Z) applied elementwise to the shocks; the
VaR example computes its terminal values by the same line with drift mu. -/
noncomputable def terminal_prices (S0 r sigma T : ℝ) (Z : List ℝ) : List ℝ :=
  let dt := T
  Z.map (fun z => S0 * Real.exp ((r - 0.5 * sigma ^ 2) * dt + sigma * Real.sqrt dt * z))

/-- monte_carlo_european_call: antithetic normal shocks Z = concat(U, -U),
terminal prices, call payoff, discounting, and the pair of the mean and of
np.std(discounted) / np.sqrt(num_simulations).  The base normal draw of
num_simulations / 2 values enters as the U argument. -/
noncomputable def monte_carlo_european_call (S0 K T r sigma : ℝ) (numSims : ℕ)
    (U : List ℝ) : ℝ × ℝ :=
  let Z := U ++ U.map (fun u => -u)
  let ST := terminal_prices S0 r sigma T Z
  let payoff := ST.map (fun s => max (s - K) 0)
  let disc := payoff.map (fun p => Real.exp (-(r * T)) * p)
  (mean disc, stdR disc / Real.sqrt (numSims : ℝ))

/-- np.linspace(a, b, n): n points from a to b inclusive; for n = 1 the
single point is a (the degenerate quotient is read as zero, matching the
numpy output). -/
noncomputable def linspace (a b : ℝ) (n : ℕ) : List ℝ :=
  (List.range n).map (fun k : ℕ => a + (b - a) * (k : ℝ) / ((n : ℝ) - 1))

/-- np.cumsum: the list of running sums. -/
noncomputable def cumsum : List ℝ → List ℝ
  | [] => []
  | x :: xs => x :: (cumsum xs).map (fun y => x + y)

/-- simulate_gbm: dt = T / N, time grid np.linspace(0, T, N), Wiener values
W = np.cumsum(sqrt(dt) * shocks), and prices
S = S0 * np.exp((mu - 0.5 * sigma ** 2) * t + sigma * W) elementwise on
the grid; the N standard-normal draws enter as the Z argument. -/
noncomputable def simulate_gbm (S0 mu sigma T : ℝ) (N : ℕ) (Z : List ℝ) :
    List ℝ × List ℝ :=
  let dt := T / (N : ℝ)
  let t := linspace 0 T N
  let W := cumsum (Z.map (fun z => Real.sqrt dt * z))
  (t, List.zipWith (fun ti wi => S0 * Real.exp ((mu - 0.5 * sigma ^ 2) * ti + sigma * wi)) t W)

end RealLayer

section RealLemmas

/-- The sum of a scaled list. -/
theorem sum_map_mul {α : Type} [Field α] (a : α) (l : List α) :
    (l.map (fun x => a * x)).sum = a * l.sum := by
  induction l with
  | nil => simp
  | cons x xs ih => simp [ih]; ring

/-- The mean of a scaled list (no nonemptiness needed: the empty mean is
zero on both sides). -/
theorem mean_map_mul {α : Type} [Field α] (a : α) (l : List α) :
    mean (l.map (fun x => a * x)) = a * mean l := by
  rw [mean, mean, sum_map_mul, List.length_map, mul_div_assoc]

/-- The population variance of an affine image scales with the square of
the slope. -/
theorem varP_map_affine (a b : ℝ) {l : List ℝ} (h : l ≠ []) :
    varP (l.map (fun x => a * x + b)) = a ^ 2 * varP l := by
  unfold varP
  rw [mean_map_affine a b h, List.map_map]
  have hfun : ((fun x => (x - (a * mean l + b)) ^ 2) ∘ fun x => a * x + b)
      = fun x => a ^ 2 * (x - mean l) ^ 2 := by
    funext x
    simp only [Function.comp]
    ring
  rw [hfun]
  have hmaps : (l.map fun x => a ^ 2 * (x - mean l) ^ 2)
      = ((l.map fun x => (x - mean l) ^ 2).map fun y => a ^ 2 * y) := by
    rw [List.map_map]
    apply List.map_congr_left
    intro x _
    simp [Function.comp]
  rw [hmaps, mean_map_mul]

/-- The population variance of a real list is nonnegative. -/
theorem varP_nonneg (l : List ℝ) : 0 ≤ varP l := by
  unfold varP mean
  apply div_nonneg
  · apply List.sum_nonneg
    intro x hx
    obtain ⟨y, _, rfl⟩ := List.mem_map.mp hx
    positivity
  · exact Nat.cast_nonneg _

/-- Claim C6: for every input sample with nonzero standard deviation and
every target mean and nonnegative target standard deviation, the moment
normalizer applies the affine transform
target_mean + target_std * (x - mean) / std and the output sample has
empirical mean equal to the target mean and empirical standard deviation
equal to the target standard deviation, exactly in real arithmetic. -/
theorem generate_normal_samples_moments (m s : ℝ) (l : List ℝ) (hne : l ≠ [])
    (hstd : stdR l ≠ 0) (hs : 0 ≤ s) :
    mean (generate_normal_samples m s l) = m
  ∧ stdR (generate_normal_samples m s l) = s := by
  have h1 : generate_normal_samples m s l
      = l.map (fun x => (s / stdR l) * x + (m - s / stdR l * mean l)) := by
    unfold generate_normal_samples
    apply List.map_congr_left
    intro x _
    ring
  constructor
  · rw [h1, mean_map_affine _ _ hne]
    ring
  · have hstd0 : 0 ≤ stdR l := Real.sqrt_nonneg (varP l)
    rw [stdR, h1, varP_map_affine _ _ hne,
      Real.sqrt_mul (sq_nonneg _),
      Real.sqrt_sq (div_nonneg hs hstd0)]
    show s / stdR l * stdR l = s
    exact div_mul_cancel₀ s hstd

/-- Witness for claim C6 at samples [0, 2], target mean 5, target standard
deviation 2; the input standard deviation is one. -/
theorem generate_normal_samples_moments_witness :
    (([0, 2] : List ℝ) ≠ [] ∧ stdR ([0, 2] : List ℝ) ≠ 0 ∧ (0 : ℝ) ≤ 2)
  ∧ mean (generate_normal_samples 5 2 [0, 2]) = 5
  ∧ stdR (generate_normal_samples 5 2 [0, 2]) = 2 := by
  have hv : varP ([0, 2] : List ℝ) = 1 := by
    norm_num [varP, mean]
  have hstd : stdR ([0, 2] : List ℝ) ≠ 0 := by
    rw [stdR, hv, Real.sqrt_one]
    exact one_ne_zero
  exact ⟨⟨by simp, hstd, by norm_num⟩,
    generate_normal_samples_moments 5 2 [0, 2] (by simp) hstd (by norm_num)⟩

/-- Claim C7: every terminal price produced by the single-step simulator
equals S0 * exp((r - 0.5 * sigma ^ 2) * T + sigma * sqrt(T) * Z) at the
corresponding shock; the internal step size dt is exactly the horizon T. -/
theorem terminal_price_formula (S0 r sigma T : ℝ) (Z : List ℝ) (k : ℕ) :
    (terminal_prices S0 r sigma T Z)[k]?
      = Z[k]?.map (fun z => S0 * Real.exp ((r - 0.5 * sigma ^ 2) * T
          + sigma * Real.sqrt T * z)) := by
  simp [terminal_prices]

/-- Element formula for np.linspace. -/
theorem linspace_get (a b : ℝ) {n k : ℕ} (h : k < n) :
    (linspace a b n)[k]? = some (a + (b - a) * (k : ℝ) / ((n : ℝ) - 1)) := by
  rw [linspace, List.getElem?_map, List.getElem?_range h]
  rfl

/-- The running-sum list has the length of its input. -/
theorem cumsum_length (xs : List ℝ) : (cumsum xs).length = xs.length := by
  induction xs with
  | nil => simp [cumsum]
  | cons x xs ih => simp [cumsum, ih]

/-- Element formula for np.cumsum: position k holds the sum of the first
k + 1 entries. -/
theorem cumsum_get : ∀ (xs : List ℝ) (k : ℕ), k < xs.length →
    (cumsum xs)[k]? = some ((xs.take (k + 1)).sum) := by
  intro xs
  induction xs with
  | nil =>
    intro k h
    simp at h
  | cons x xs ih =>
    intro k h
    cases k with
    | zero => simp [cumsum]
    | succ k =>
      have hk : k < xs.length := by
        simpa using h
      simp [cumsum, ih k hk, List.take_succ_cons]

/-- Element formula for zipWith at a position defined in both lists. -/
theorem zipWith_getElem? {α β γ : Type} (f : α → β → γ) :
    ∀ (l1 : List α) (l2 : List β) (k : ℕ) (a : α) (b : β),
      l1[k]? = some a → l2[k]? = some b → (List.zipWith f l1 l2)[k]? = some (f a b) := by
  intro l1
  induction l1 with
  | nil =>
    intro l2 k a b h1 _
    simp at h1
  | cons x xs ih =>
    intro l2 k a b h1 h2
    cases l2 with
    | nil => simp at h2
    | cons y ys =>
      cases k with
      | zero =>
        simp only [List.getElem?_cons_zero, Option.some.injEq] at h1 h2
        simp [List.zipWith_cons_cons, h1, h2]
      | succ k =>
        simp only [List.getElem?_cons_succ] at h1 h2
        simp only [List.zipWith_cons_cons, List.getElem?_cons_succ]
        exact ih ys k a b h1 h2

/-- Shared element formula for the path simulator: position k of the grid
and of the price path. -/
theorem simulate_gbm_get (S0 mu sigma T : ℝ) (N : ℕ) (Z : List ℝ)
    (hZ : Z.length = N) {k : ℕ} (hk : k < N) :
    (simulate_gbm S0 mu sigma T N Z).1[k]? = some ((k : ℝ) * (T / ((N : ℝ) - 1)))
  ∧ (simulate_gbm S0 mu sigma T N Z).2[k]?
      = some (S0 * Real.exp ((mu - 0.5 * sigma ^ 2) * ((k : ℝ) * (T / ((N : ℝ) - 1)))
          + sigma * ((Z.map (fun z => Real.sqrt (T / (N : ℝ)) * z)).take (k + 1)).sum)) := by
  have ht : (linspace 0 T N)[k]? = some ((k : ℝ) * (T / ((N : ℝ) - 1))) := by
    rw [linspace_get 0 T hk]
    congr 1
    ring
  have hw : (cumsum (Z.map (fun z => Real.sqrt (T / (N : ℝ)) * z)))[k]?
      = some (((Z.map (fun z => Real.sqrt (T / (N : ℝ)) * z)).take (k + 1)).sum) := by
    apply cumsum_get
    rw [List.length_map, hZ]
    exact hk
  constructor
  · exact ht
  · exact zipWith_getElem? _ _ _ _ _ _ ht hw

end RealLemmas

/-- Claim C8: the multi-step path simulator uses step size dt = T / N, a
grid of N equally spaced points over the horizon (position k sits at
k * T / (N - 1)), cumulative Wiener values equal to the running sums of
sqrt(dt) * Z, and produces the price at grid position k by the closed-form
GBM solution S0 * exp((mu - 0.5 * sigma ^ 2) * t + sigma * W) applied to
the running Brownian accumulation, with no multiplicative recursion. -/
theorem simulate_gbm_closed_form (S0 mu sigma T : ℝ) (N : ℕ) (Z : List ℝ)
    (hZ : Z.length = N) (k : ℕ) (hk : k < N) :
    (simulate_gbm S0 mu sigma T N Z).1[k]? = some ((k : ℝ) * (T / ((N : ℝ) - 1)))
  ∧ (simulate_gbm S0 mu sigma T N Z).2[k]?
      = some (S0 * Real.exp ((mu - 0.5 * sigma ^ 2) * ((k : ℝ) * (T / ((N : ℝ) - 1)))
          + sigma * ((Z.map (fun z => Real.sqrt (T / (N : ℝ)) * z)).take (k + 1)).sum)) :=
  simulate_gbm_get S0 mu sigma T N Z hZ hk

/-- Witness for claim C8 at S0 = 1, mu = 0, sigma = 0, T = 1, one step,
one zero shock, position zero. -/
theorem simulate_gbm_closed_form_witness :
    (([(0 : ℝ)] : List ℝ).length = 1 ∧ 0 < 1)
  ∧ (simulate_gbm 1 0 0 1 1 [(0 : ℝ)]).1[0]?
      = some (((0 : ℕ) : ℝ) * (1 / (((1 : ℕ) : ℝ) - 1)))
  ∧ (simulate_gbm 1 0 0 1 1 [(0 : ℝ)]).2[0]?
      = some (1 * Real.exp ((0 - 0.5 * 0 ^ 2) * (((0 : ℕ) : ℝ) * (1 / (((1 : ℕ) : ℝ) - 1)))
          + 0 * (([(0 : ℝ)].map (fun z => Real.sqrt (1 / ((1 : ℕ) : ℝ)) * z)).take (0 + 1)).sum)) :=
  ⟨⟨rfl, one_pos⟩,
    (simulate_gbm_closed_form 1 0 0 1 1 [0] rfl 0 one_pos).1,
    (simulate_gbm_closed_form 1 0 0 1 1 [0] rfl 0 one_pos).2⟩

/-- Claim C10: the first element of the simulated path already carries the
first Brownian increment at grid time zero: it equals
S0 * exp(sigma * sqrt(T / N) * Z1), and whenever sigma, T are positive,
S0 is nonzero and the first shock is nonzero, the path does not start at
the initial price S0. -/
theorem simulate_gbm_first_element (S0 mu sigma T : ℝ) (N : ℕ) (Z : List ℝ)
    (z1 : ℝ) (hz : Z[0]? = some z1) (hZ : Z.length = N) :
    (simulate_gbm S0 mu sigma T N Z).2[0]?
      = some (S0 * Real.exp (sigma * (Real.sqrt (T / (N : ℝ)) * z1)))
  ∧ (0 < sigma → 0 < T → S0 ≠ 0 → z1 ≠ 0 →
      (simulate_gbm S0 mu sigma T N Z).2[0]? ≠ some S0) := by
  have h0 : 0 < Z.length := by
    cases Z with
    | nil => simp at hz
    | cons a l => simp
  have hN : 0 < N := hZ ▸ h0
  obtain ⟨a, rest, rfl⟩ : ∃ a rest, Z = a :: rest := by
    cases Z with
    | nil => simp at hz
    | cons a l => exact ⟨a, l, rfl⟩
  have ha : a = z1 := by
    simpa using hz
  subst ha
  have hfirst := (simulate_gbm_get S0 mu sigma T N (a :: rest) hZ hN).2
  have hval : (simulate_gbm S0 mu sigma T N (a :: rest)).2[0]?
      = some (S0 * Real.exp (sigma * (Real.sqrt (T / (N : ℝ)) * a))) := by
    rw [hfirst]
    congr 2
    simp
  refine ⟨hval, fun hσ hT hS0 hz1 heq => ?_⟩
  have h1 : S0 * Real.exp (sigma * (Real.sqrt (T / (N : ℝ)) * a)) = S0 :=
    Option.some.inj (hval.symm.trans heq)
  have hexp : Real.exp (sigma * (Real.sqrt (T / (N : ℝ)) * a)) = 1 :=
    mul_left_cancel₀ hS0 (h1.trans (mul_one S0).symm)
  have hx : sigma * (Real.sqrt (T / (N : ℝ)) * a) = 0 :=
    (Real.exp_eq_one_iff _).mp hexp
  have hsq : Real.sqrt (T / (N : ℝ)) ≠ 0 := by
    have hTN : 0 < T / (N : ℝ) := div_pos hT (by exact_mod_cast hN)
    exact (Real.sqrt_pos.mpr hTN).ne'
  exact mul_ne_zero (ne_of_gt hσ) (mul_ne_zero hsq hz1) hx

/-- Witness for claim C10 at S0 = 2, mu = 0, sigma = 1, T = 1, one step,
single unit shock: the path starts at 2 * exp(1), not at 2. -/
theorem simulate_gbm_first_element_witness :
    (simulate_gbm 2 0 1 1 1 [(1 : ℝ)]).2[0]?
      = some (2 * Real.exp (1 * (Real.sqrt (1 / ((1 : ℕ) : ℝ)) * 1)))
  ∧ (simulate_gbm 2 0 1 1 1 [(1 : ℝ)]).2[0]? ≠ some 2 :=
  ⟨(simulate_gbm_first_element 2 0 1 1 1 [1] 1 rfl rfl).1,
    (simulate_gbm_first_element 2 0 1 1 1 [1] 1 rfl rfl).2 one_pos one_pos
      two_ne_zero one_ne_zero⟩

end MC
